import Mathlib

/-!
# Verification of the normalized-cache write path (`writeToStore.ts`)

A shallow embedding of `StoreWriter.writeQueryToStore`,
`StoreWriter.writeSelectionSetToStore`, `StoreWriter.processSelectionSet`,
`StoreWriter.processFieldValue` and `walkWithMergeOverrides` from
`src/cache/inmemory/writeToStore.ts`, together with models of the external
collaborators (entity store, policy provider, graphql utilities) that the
source consumes through narrow interfaces; collaborator models are marked
`Modelled from the spec:` in their doc comments.

JavaScript values flowing through the writer are embedded as the inductive
`JValue` (with `Option` distinguishing `undefined` from `null`), store values
as `StoreValue`, and the mutable write state (destination store, per-write
dedup table, emitted warnings and the order of `store.merge` commits) as the
explicitly threaded `WState`.  The mutual recursion of the source is embedded
with an explicit fuel parameter, because cyclic named fragments would make the
raw recursion non-terminating (the real code diverges there as well); fuel is
consumed only on the recursive calls that are not structurally decreasing, so
iterating over the selections of one selection set is fuel-free.
-/

set_option autoImplicit false
set_option linter.unusedVariables false

namespace Apollo

/-- A JSON-ish JavaScript runtime value.  `Option JValue` is used wherever the
source distinguishes `undefined` (absent) from `null`. -/
inductive JValue where
  | null
  | bool (b : Bool)
  | num (n : Int)
  | str (s : String)
  | arr (xs : List JValue)
  | obj (fields : List (String × JValue))

/-- First-match association-list lookup, the embedding of JS property read
`o[k]` on plain objects. -/
def alookup {α : Type} (k : String) : List (String × α) → Option α
  | [] => none
  | (k', v) :: rest => if k' = k then some v else alookup k rest

/-- Association-list update, the embedding of JS property write `o[k] = v`:
an existing key keeps its position, a new key is appended. -/
def aset {α : Type} (k : String) (v : α) : List (String × α) → List (String × α)
  | [] => [(k, v)]
  | (k', v') :: rest => if k' = k then (k, v) :: rest else (k', v') :: aset k v rest

/-- Reading a property of a result value: `undefined` on non-objects. -/
def jget (v : JValue) (k : String) : Option JValue :=
  match v with
  | .obj fields => alookup k fields
  | _ => none

/-- JavaScript truthiness of an embedded value. -/
def jsTruthy : JValue → Bool
  | .null => false
  | .bool b => b
  | .num n => decide (n ≠ 0)
  | .str s => decide (s ≠ "")
  | .arr _ => true
  | .obj _ => true

/-- The boolean argument of a `@skip`/`@include` directive: a literal or a
variable reference (the directive argument may itself be a variable
reference, resolved against the bound variables). -/
inductive BoolArg where
  | lit (b : Bool)
  | var (name : String)
deriving DecidableEq

/-- A directive occurrence on a selection. -/
structure Directive where
  name : String
  ifArg : Option BoolArg
deriving DecidableEq

mutual
/-- A field selection (`FieldNode`): optional alias, name, an opaque
deterministic encoding of its arguments (arguments are consumed only by the
policy provider, so their structure is irrelevant here), directives, and an
optional nested selection set. -/
inductive FieldNode where
  | mk (aliasName : Option String) (name : String) (args : String)
      (directives : List Directive) (selectionSet : Option (List Selection))

/-- One selection of a selection set: a field, an inline fragment with an
optional type condition, or a named fragment spread. -/
inductive Selection where
  | field (node : FieldNode)
  | inlineFragment (typeCondition : Option String) (directives : List Directive)
      (selections : List Selection)
  | fragmentSpread (name : String) (directives : List Directive)
end

/-- A selection set is its list of selections. -/
abbrev SelectionSet := List Selection

def FieldNode.aliasName : FieldNode → Option String
  | .mk a _ _ _ _ => a

def FieldNode.name : FieldNode → String
  | .mk _ n _ _ _ => n

def FieldNode.args : FieldNode → String
  | .mk _ _ a _ _ => a

def FieldNode.directives : FieldNode → List Directive
  | .mk _ _ _ d _ => d

def FieldNode.selectionSet : FieldNode → Option SelectionSet
  | .mk _ _ _ _ s => s

/-- The directives attached to a selection (used by `shouldInclude`). -/
def Selection.directives : Selection → List Directive
  | .field f => f.directives
  | .inlineFragment _ ds _ => ds
  | .fragmentSpread _ ds => ds

mutual
/-- Structural equality test on field nodes (the dedup table of a write
context compares selection sets). -/
def FieldNode.beq : FieldNode → FieldNode → Bool
  | .mk a1 n1 g1 d1 s1, .mk a2 n2 g2 d2 s2 =>
    decide (a1 = a2) && decide (n1 = n2) && decide (g1 = g2) && decide (d1 = d2)
      && optSelsBeq s1 s2

/-- Structural equality test on selections. -/
def Selection.beq : Selection → Selection → Bool
  | .field f1, .field f2 => FieldNode.beq f1 f2
  | .inlineFragment t1 d1 s1, .inlineFragment t2 d2 s2 =>
    decide (t1 = t2) && decide (d1 = d2) && selsBeq s1 s2
  | .fragmentSpread n1 d1, .fragmentSpread n2 d2 => decide (n1 = n2) && decide (d1 = d2)
  | _, _ => false

/-- Structural equality test on selection lists. -/
def selsBeq : List Selection → List Selection → Bool
  | [], [] => true
  | a :: as, b :: bs => Selection.beq a b && selsBeq as bs
  | _, _ => false

/-- Structural equality test on optional selection lists. -/
def optSelsBeq : Option (List Selection) → Option (List Selection) → Bool
  | none, none => true
  | some a, some b => selsBeq a b
  | _, _ => false
end

/-- Membership of a selection set in the list of selection sets already
written for an entity key (`sets.indexOf(selectionSet) >= 0`). -/
def selSetsContain (sets : List SelectionSet) (ss : SelectionSet) : Bool :=
  sets.any (fun s0 => selsBeq s0 ss)

/-- A fragment usable by `fragmentMatches`: its type condition (absent on an
unconditioned inline fragment) and its selection set. -/
structure FragmentDef where
  typeCondition : Option String
  selectionSet : SelectionSet

/-- The fragment lookup table built by `createFragmentMap`. -/
abbrev FragmentMap := List (String × FragmentDef)

/-- A value stored in the normalized cache: a scalar leaf (a defensively
copied result value), a reference to another entity key, an array of store
values, or an embedded object with no identity of its own. -/
inductive StoreValue where
  | scalar (v : JValue)
  | ref (key : String)
  | arr (xs : List StoreValue)
  | obj (fields : List (String × StoreValue))

/-- The field map committed under one entity key. -/
abbrev StoreObject := List (String × StoreValue)

/-- A custom field merge function supplied by the policy provider.  It
receives the (possibly absent) existing and incoming values and produces the
value to commit. -/
def StoreValueMergeFunction : Type := Option StoreValue → Option StoreValue → StoreValue

/-- The sparse, tree-shaped record of custom-merge obligations
(`MergeOverrides` in the source): at each object key or stringified array
index, an optional merge function and an optional subtree for nested
positions. -/
inductive MergeOverrides where
  | node (entries : List (String × Option StoreValueMergeFunction × Option MergeOverrides))

mutual
/-- The general-purpose structural merge used during writes.
Modelled from the spec: objects merge key-by-key, arrays merge positionally,
otherwise the incoming value wins (the `DeepMerger` collaborator). -/
def deepMergeSV : StoreValue → StoreValue → StoreValue
  | .obj e, .obj i => .obj (deepMergeEntries e i)
  | .arr e, .arr i => .arr (deepMergeArr e i)
  | _, i => i

/-- Key-by-key structural merge of two field maps: existing keys keep their
position and are merged recursively, new incoming keys are appended. -/
def deepMergeEntries (e : List (String × StoreValue)) :
    List (String × StoreValue) → List (String × StoreValue)
  | [] => e
  | (k, iv) :: rest =>
    let mv := match alookup k e with
      | some ev => deepMergeSV ev iv
      | none => iv
    deepMergeEntries (aset k mv e) rest

/-- Positional structural merge of two arrays; a longer existing tail is
kept. -/
def deepMergeArr : List StoreValue → List StoreValue → List StoreValue
  | e, [] => e
  | [], iv :: ir => iv :: deepMergeArr [] ir
  | ev :: er, iv :: ir => deepMergeSV ev iv :: deepMergeArr er ir
end

mutual
/-- Merging two optional override subtrees the way the write context's
general-purpose merge does.  Modelled from the spec: the override records are
merged structurally, so two subtrees merge key-by-key, and in every other
combination the incoming side wins. -/
def mergeOptOverrides : Option MergeOverrides → Option MergeOverrides → Option MergeOverrides
  | some a, some b => some (mergeOverridesTrees a b)
  | _, b => b

/-- Key-by-key structural merge of two override trees. -/
def mergeOverridesTrees : MergeOverrides → MergeOverrides → MergeOverrides
  | .node e, .node i => .node (mergeOverridesEntries e i)

/-- Merge the entry lists of two override trees: the incoming merge function
replaces the existing one, and the child subtrees merge recursively. -/
def mergeOverridesEntries
    (e : List (String × Option StoreValueMergeFunction × Option MergeOverrides)) :
    List (String × Option StoreValueMergeFunction × Option MergeOverrides) →
      List (String × Option StoreValueMergeFunction × Option MergeOverrides)
  | [] => e
  | (k, im, ic) :: rest =>
    let mv := match alookup k e with
      | some (_, ec) => (im, mergeOptOverrides ec ic)
      | none => (im, ic)
    mergeOverridesEntries (aset k mv e) rest
end

/-- The normalized entity store.  Modelled from the spec: a mapping from
entity key to field map with point reads, structural merge-on-write, and a
retained-roots set (`retain`); eviction is out of scope. -/
structure NormalizedCache where
  data : List (String × StoreObject)
  rootIds : List String

/-- `store.get(dataId)`: the field map stored under a key, if any. -/
def NormalizedCache.get (c : NormalizedCache) (dataId : String) : Option StoreObject :=
  alookup dataId c.data

/-- `store.getFieldValue(dataId, storeFieldName)`. -/
def NormalizedCache.getFieldValue (c : NormalizedCache) (dataId : String)
    (storeFieldName : String) : Option StoreValue :=
  (c.get dataId).bind (alookup storeFieldName)

/-- `store.merge(dataId, incoming)`: structural merge-on-write of a field map
under a key. -/
def NormalizedCache.mergeIn (c : NormalizedCache) (dataId : String)
    (incoming : StoreObject) : NormalizedCache :=
  { c with data := aset dataId (deepMergeEntries ((c.get dataId).getD []) incoming) c.data }

/-- `store.retain(dataId)`: mark a key as an externally reachable root. -/
def NormalizedCache.retain (c : NormalizedCache) (dataId : String) : NormalizedCache :=
  { c with rootIds := if dataId ∈ c.rootIds then c.rootIds else dataId :: c.rootIds }

/-- `defaultNormalizedCacheFactory()`: a freshly constructed empty store. -/
def emptyCache : NormalizedCache := ⟨[], []⟩

/-- The mutable portion of one write invocation, threaded explicitly:
the destination store, the dedup table mapping entity key to the selection
sets already processed for it, the missing-field warnings emitted so far
(recorded by result key), and the ordered list of `store.merge` commits
performed so far (observing commit order for temporal claims). -/
structure WState where
  store : NormalizedCache
  written : List (String × List SelectionSet)
  warnings : List String
  log : List (String × StoreObject)

/-- Variable bindings: a lookup from variable name to value. -/
def Vars : Type := String → Option JValue

/-- The immutable portion of the write context: the resolved variable
bindings and the fragment lookup table of this invocation. -/
structure WriteContext where
  vars : Vars
  fragmentMap : FragmentMap

/-- JavaScript truthiness of a store value: a reference, array or embedded
object is an object at runtime, hence truthy; a scalar leaf has its
value's truthiness. -/
def svTruthy : StoreValue → Bool
  | .scalar v => jsTruthy v
  | .ref _ => true
  | .arr _ => true
  | .obj _ => true

/-- The runtime value of the resolved type name.  The source types the
resolution chain `string`, but the `as string` cast on the stored candidate
is compile-time only, so a truthy non-string stored `__typename` flows
through the `||` chain unchanged.  `str` holds string values (a stored
string scalar is represented by its string); `other` holds a non-string
stored value that won the chain. -/
inductive TypenameRt where
  | str (s : String)
  | other (v : StoreValue)

/-- JavaScript truthiness of a resolved type-name value. -/
def typenameTruthy : TypenameRt → Bool
  | .str s => decide (s ≠ "")
  | .other v => svTruthy v

/-- The policy provider, consumed through its interface.  Modelled from the
spec: default type names for well-known root keys, result-object
identification, storage-key computation, custom merge functions, fragment
type matching, and the strict possible-types switch.  The type-name
argument of the per-field and fragment-matching policies is the runtime
value the writer resolved, which need not be a string. -/
structure Policies where
  rootTypenamesById : String → Option String
  usingPossibleTypes : Bool
  getStoreFieldName : Option TypenameRt → FieldNode → Vars → String
  getFieldMergeFunction : Option TypenameRt → FieldNode → Vars → Option StoreValueMergeFunction
  identify : JValue → SelectionSet → FragmentMap → Option String
  fragmentMatches : FragmentDef → Option TypenameRt → Bool

/-- The store writer's configuration: its policies, plus the build profile
switch (`process.env.NODE_ENV === 'production'`) that controls defensive
deep-copying of scalar leaves. -/
structure Config where
  policies : Policies
  production : Bool

/-- Evaluating the boolean argument of a `@skip`/`@include` directive.
Modelled from the spec: a literal is itself; a variable reference resolves
through the bindings, any non-boolean binding counting as false. -/
def evalBoolArg (vars : Vars) : BoolArg → Bool
  | .lit b => b
  | .var n => match vars n with
    | some (.bool b) => b
    | _ => false

/-- `shouldInclude`.  Modelled from the spec: a selection is skipped when a
`@skip` directive evaluates true or an `@include` directive evaluates false
against the bound variables. -/
def shouldInclude (sel : Selection) (vars : Vars) : Bool :=
  sel.directives.all fun d =>
    if d.name = "skip" then !(match d.ifArg with | some a => evalBoolArg vars a | none => false)
    else if d.name = "include" then (match d.ifArg with | some a => evalBoolArg vars a | none => true)
    else true

/-- `resultKeyNameFromField`: the key under which a field's value appears in
the result object (alias if present, else field name). -/
def resultKeyNameFromField (f : FieldNode) : String :=
  f.aliasName.getD f.name

/-- Whether a field carries a `@defer` or `@client` directive (which
suppresses the missing-field warning). -/
def hasDeferOrClientDirective (f : FieldNode) : Bool :=
  f.directives.any fun d => decide (d.name = "defer") || decide (d.name = "client")

/-- Scan a selection list for a type-name field selection whose result value
is a string, descending into inline fragments. -/
def getTypenameFromSelections (result : JValue) : List Selection → FragmentMap → Option String
  | [], _ => none
  | .field f :: rest, fm =>
    if f.name = "__typename" then
      match jget result (resultKeyNameFromField f) with
      | some (.str s) => some s
      | _ => getTypenameFromSelections result rest fm
    else getTypenameFromSelections result rest fm
  | .inlineFragment _ _ sels :: rest, fm =>
    match getTypenameFromSelections result sels fm with
    | some s => some s
    | none => getTypenameFromSelections result rest fm
  | .fragmentSpread _ _ :: rest, fm => getTypenameFromSelections result rest fm

/-- `getTypenameFromResult`.  Modelled from the spec: a type-name field
present directly on the result object wins; otherwise the selection set is
scanned for a type-name field selection (honoring aliases) and into inline
fragments; named fragment spreads are not traversed by this model. -/
def getTypenameFromResult (result : JValue) (ss : SelectionSet) (fm : FragmentMap) :
    Option String :=
  match jget result "__typename" with
  | some (.str s) => some s
  | _ => getTypenameFromSelections result ss fm

/-- `getFragmentFromSelection`.  Modelled from the spec: an inline fragment
is its own definition; a named spread resolves through the fragment table. -/
def getFragmentFromSelection (sel : Selection) (fm : FragmentMap) : Option FragmentDef :=
  match sel with
  | .inlineFragment tc _ sels => some ⟨tc, sels⟩
  | .fragmentSpread n _ => alookup n fm
  | .field _ => none

mutual
/-- `cloneDeep`.  Modelled from the spec: the defensive deep copy taken of
every scalar leaf before storage in the default (non-production) profile; it
rebuilds the value node by node, so the stored copy shares no structure with
the caller's input. -/
def cloneDeep : JValue → JValue
  | .null => .null
  | .bool b => .bool b
  | .num n => .num n
  | .str s => .str s
  | .arr xs => .arr (cloneDeepList xs)
  | .obj fs => .obj (cloneDeepFields fs)

/-- Deep copy of an array value's elements. -/
def cloneDeepList : List JValue → List JValue
  | [] => []
  | x :: rest => cloneDeep x :: cloneDeepList rest

/-- Deep copy of an object value's properties. -/
def cloneDeepFields : List (String × JValue) → List (String × JValue)
  | [] => []
  | (k, v) :: rest => (k, cloneDeep v) :: cloneDeepFields rest
end

/-- Reading a position (object key or stringified array index) of an optional
store value, the embedding of `x && x[name]`. -/
def svGet : Option StoreValue → String → Option StoreValue
  | some (.obj fs), k => alookup k fs
  | some (.arr xs), k => match k.toNat? with
    | some i => xs[i]?
    | none => none
  | _, _ => none

/-- Writing a position of an optional store value, the embedding of
`x[name] = v` (a no-op where the target value cannot hold properties). -/
def svSet : Option StoreValue → String → StoreValue → Option StoreValue
  | some (.obj fs), k, v => some (.obj (aset k v fs))
  | some (.arr xs), k, v => match k.toNat? with
    | some i => some (.arr (xs.set i v))
    | none => some (.arr xs)
  | o, _, _ => o

/-- Conditional position write used after a child walk: assign only when the
child walk produced a value. -/
def svSetOpt (o : Option StoreValue) (k : String) : Option StoreValue → Option StoreValue
  | some v => svSet o k v
  | none => o

mutual
/-- `walkWithMergeOverrides`: depth-first application of the recorded custom
merge functions — child subtrees first, then the position's own merge
function applied to the pre-write existing value and the (child-adjusted)
incoming value, overwriting the incoming position.  The source mutates
`incomingObject` in place; here the adjusted incoming value is returned. -/
def walkWithMergeOverrides (eo io : Option StoreValue) : MergeOverrides → Option StoreValue
  | .node entries => walkOverridesEntries eo io entries

/-- Process the entries of one override tree node in order. -/
def walkOverridesEntries (eo : Option StoreValue) (io : Option StoreValue) :
    List (String × Option StoreValueMergeFunction × Option MergeOverrides) → Option StoreValue
  | [] => io
  | (name, mfn, child) :: rest =>
    let existingValue := svGet eo name
    let incomingValue := svGet io name
    let step : Option StoreValue × Option StoreValue := match child with
      | some c =>
        let walked := walkWithMergeOverrides existingValue incomingValue c
        (walked, svSetOpt io name walked)
      | none => (incomingValue, io)
    let io2 := match mfn with
      | some m => svSet step.2 name (m existingValue step.1)
      | none => step.2
    walkOverridesEntries eo io2 rest
end

/-- JavaScript `a || b` on optional type-name values: the left side wins
exactly when it is truthy, so an absent, empty-string or otherwise falsy
candidate falls through to the right side. -/
def jsOrTypename : Option TypenameRt → Option TypenameRt → Option TypenameRt
  | some t, b => if typenameTruthy t then some t else b
  | none, b => b

/-- The `__typename` value already stored under an entity key, as the
runtime value of `store.getFieldValue(dataId, "__typename") as string`: the
cast has no runtime effect, so the stored value enters the resolution chain
as-is — a string scalar as its string, anything else as a non-string
value. -/
def storedTypename (store : NormalizedCache) (dataId : String) : Option TypenameRt :=
  (store.getFieldValue dataId "__typename").map fun v =>
    match v with
    | .scalar (.str s) => .str s
    | v => .other v

/-- The type-name resolution chain of `writeSelectionSetToStore`: the result
object's own type-name field, else the stored `__typename` value, else the
policy provider's default for the key — combined with JS `||`, so a falsy
candidate (absent, or an empty string) falls through, and a truthy
non-string stored value wins and is used as-is. -/
def resolveTypename (cfg : Config) (ctx : WriteContext) (store : NormalizedCache)
    (dataId : String) (result : JValue) (selectionSet : SelectionSet) : Option TypenameRt :=
  jsOrTypename ((getTypenameFromResult result selectionSet ctx.fragmentMap).map .str)
    (jsOrTypename (storedTypename store dataId)
      ((cfg.policies.rootTypenamesById dataId).map .str))

/-- One level of the stratified recursion of the store writer: the three
mutually recursive methods of `StoreWriter`, with one unit of recursion
budget corresponding to one nesting step (entity recursion, embedded-object
recursion, or fragment expansion).  The budget only exists because cyclic
named fragments would make the raw mutual recursion of the source diverge;
iterating over the selections of one selection set, and over the elements of
one array value, is budget-free. -/
structure WriterFuncs where
  writeSelectionSetToStore : WriteContext → String → JValue → SelectionSet → WState → WState
  processSelectionSet : WriteContext → JValue → SelectionSet → Option MergeOverrides →
    Option TypenameRt → WState → StoreObject × Option MergeOverrides × WState
  processFieldValue : WriteContext → JValue → FieldNode → WState →
    StoreValue × Option MergeOverrides × WState

/-- The initial accumulated field map of `processSelectionSet`: the resolved
type name, exactly when its runtime value is a string
(`typeof typename === "string"`), is recorded under `__typename` before any
selection is processed. -/
def initialFields (typename : Option TypenameRt) : StoreObject :=
  match typename with
  | some (.str t) => [("__typename", .scalar (.str t))]
  | _ => []

/-- The writer with an exhausted recursion budget: every operation returns
its inputs unchanged (the source has no such level; it is the base of the
stratification and is never reached on executions whose nesting depth is
below the budget). -/
def writerZero : WriterFuncs where
  writeSelectionSetToStore := fun _ _ _ _ s => s
  processSelectionSet := fun _ _ _ mergeOverrides typename s =>
    (initialFields typename, mergeOverrides, s)
  processFieldValue := fun _ _ _ s => (.scalar .null, none, s)

mutual
/-- `StoreWriter.processFieldValue` at one recursion level: classify one
field's result value.  A value under a field with no sub-selection, or a
null value, is a scalar leaf (deep-copied outside the production profile);
an array maps every element through this processor; an identifiable object
is written as its own entity and replaced by a reference; any other value is
processed inline as an embedded object. -/
def processFieldValueAt (cfg : Config) (prev : WriterFuncs) (ctx : WriteContext)
    (value : JValue) (field : FieldNode) (s : WState) :
    StoreValue × Option MergeOverrides × WState :=
  match field.selectionSet, value with
  | none, _ =>
    (.scalar (if cfg.production then value else cloneDeep value), none, s)
  | some _, .null =>
    (.scalar (if cfg.production then JValue.null else cloneDeep JValue.null), none, s)
  | some _, .arr xs =>
    let processed := processFieldValueListAt cfg prev ctx field 0 xs s
    (.arr processed.1, processed.2.1, processed.2.2)
  | some ss, v =>
    -- `identify` is pure, so guarding the call with the truthiness test is
    -- equivalent to the source's `if (value) { const dataId = identify... }`.
    let dataIdOpt := if jsTruthy v then cfg.policies.identify v ss ctx.fragmentMap else none
    match dataIdOpt with
    | some dataId =>
      (.ref dataId, none, prev.writeSelectionSetToStore ctx dataId v ss s)
    | none =>
      let processed := prev.processSelectionSet ctx v ss none
        ((getTypenameFromResult v ss ctx.fragmentMap).map TypenameRt.str) s
      (.obj processed.1, processed.2.1, processed.2.2)

/-- The `value.map((item, i) => ...)` loop of the array branch of
`processFieldValue`, collecting a sparse index-keyed override tree for the
indices that report overrides. -/
def processFieldValueListAt (cfg : Config) (prev : WriterFuncs) (ctx : WriteContext)
    (field : FieldNode) (i : Nat) (xs : List JValue) (s : WState) :
    List StoreValue × Option MergeOverrides × WState :=
  match xs with
  | [] => ([], none, s)
  | x :: rest =>
    let processed := processFieldValueAt cfg prev ctx x field s
    let processedRest := processFieldValueListAt cfg prev ctx field (i + 1) rest processed.2.2
    let combined : Option MergeOverrides := match processed.2.1 with
      | none => processedRest.2.1
      | some t => some (.node ((toString i, (none : Option StoreValueMergeFunction), some t) ::
          (match processedRest.2.1 with | some (.node es) => es | none => [])))
    (processed.1 :: processedRest.1, combined, processedRest.2.2)
end

/-- The `selectionSet.selections.forEach` loop of `processSelectionSet`,
threading the accumulated field map, the accumulated override tree and the
write state through the selections in order. -/
def processSelectionsAt (cfg : Config) (prev : WriterFuncs) (ctx : WriteContext)
    (result : JValue) (typename : Option TypenameRt) :
    List Selection → StoreObject → Option MergeOverrides → WState →
      StoreObject × Option MergeOverrides × WState
  | [], acc, ov, s => (acc, ov, s)
  | sel :: rest, acc, ov, s =>
    if shouldInclude sel ctx.vars then
      match sel with
      | .field f =>
        let resultFieldKey := resultKeyNameFromField f
        match jget result resultFieldKey with
        | some value =>
          let storeFieldName := cfg.policies.getStoreFieldName typename f ctx.vars
          let processed := processFieldValueAt cfg prev ctx value f s
          let mergeFn := cfg.policies.getFieldMergeFunction typename f ctx.vars
          let ov2 : Option MergeOverrides :=
            if mergeFn.isSome || processed.2.1.isSome then
              let es := match ov with
                | some (.node es) => es
                | none => []
              let newEntry := match alookup storeFieldName es with
                | some (_, ec) => (mergeFn, mergeOptOverrides ec processed.2.1)
                | none => (mergeFn, processed.2.1)
              some (.node (aset storeFieldName newEntry es))
            else ov
          let acc2 := deepMergeEntries acc [(storeFieldName, processed.1)]
          processSelectionsAt cfg prev ctx result typename rest acc2 ov2 processed.2.2
        | none =>
          let s2 := if cfg.policies.usingPossibleTypes && !(hasDeferOrClientDirective f)
            then { s with warnings := s.warnings ++ [resultFieldKey] }
            else s
          processSelectionsAt cfg prev ctx result typename rest acc ov s2
      | _ =>
        match getFragmentFromSelection sel ctx.fragmentMap with
        | some fragment =>
          if cfg.policies.fragmentMatches fragment typename then
            let processed :=
              prev.processSelectionSet ctx result fragment.selectionSet ov typename s
            let acc2 := deepMergeEntries acc processed.1
            let ov2 := match processed.2.1 with
              | some t => mergeOptOverrides ov (some t)
              | none => ov
            processSelectionsAt cfg prev ctx result typename rest acc2 ov2 processed.2.2
          else processSelectionsAt cfg prev ctx result typename rest acc ov s
        | none =>
          -- A named spread missing from the fragment table makes the source
          -- throw before writing anything; the model skips the selection.
          processSelectionsAt cfg prev ctx result typename rest acc ov s
    else processSelectionsAt cfg prev ctx result typename rest acc ov s

/-- `StoreWriter.processSelectionSet` at one recursion level: start the
accumulated field map with the resolved type name (when it is a string) and
fold the selections into it. -/
def processSelectionSetAt (cfg : Config) (prev : WriterFuncs) (ctx : WriteContext)
    (result : JValue) (selectionSet : SelectionSet) (mergeOverrides : Option MergeOverrides)
    (typename : Option TypenameRt) (s : WState) : StoreObject × Option MergeOverrides × WState :=
  processSelectionsAt cfg prev ctx result typename selectionSet
    (initialFields typename) mergeOverrides s

/-- `StoreWriter.writeSelectionSetToStore` at one recursion level: dedup on
the (entity key, selection set) pair, resolve the type name, process the
selection set, run the merge-override walker when overrides were recorded,
and commit the resulting field map into the store (also appending it to the
commit log). -/
def writeSelectionSetToStoreAt (cfg : Config) (prev : WriterFuncs) (ctx : WriteContext)
    (dataId : String) (result : JValue) (selectionSet : SelectionSet) (s : WState) : WState :=
  let sets := (alookup dataId s.written).getD []
  if selSetsContain sets selectionSet then s
  else
    let s1 : WState := { s with written := aset dataId (sets ++ [selectionSet]) s.written }
    let typename := resolveTypename cfg ctx s1.store dataId result selectionSet
    let processed := processSelectionSetAt cfg prev ctx result selectionSet none typename s1
    let s2 := processed.2.2
    let fields := match processed.2.1 with
      | some t =>
        -- The walker works on wrapped store values; a top-level call always
        -- returns an object because the incoming value is an object.
        match walkWithMergeOverrides (Option.map StoreValue.obj (s2.store.get dataId))
            (some (.obj processed.1)) t with
        | some (.obj fs) => fs
        | _ => processed.1
      | none => processed.1
    { s2 with
        store := s2.store.mergeIn dataId fields,
        log := s2.log ++ [(dataId, fields)] }

/-- The store writer at a given recursion budget, tying the stratified knot:
each level's methods recurse into the previous level exactly where the
source methods recurse into one another. -/
def writerAt (cfg : Config) : Nat → WriterFuncs
  | 0 => writerZero
  | fuel + 1 =>
    let prev := writerAt cfg fuel
    { writeSelectionSetToStore := writeSelectionSetToStoreAt cfg prev
      processSelectionSet := processSelectionSetAt cfg prev
      processFieldValue := processFieldValueAt cfg prev }

/-- `StoreWriter.writeSelectionSetToStore` with an explicit recursion
budget. -/
def writeSelectionSetToStore (cfg : Config) (fuel : Nat) :
    WriteContext → String → JValue → SelectionSet → WState → WState :=
  (writerAt cfg fuel).writeSelectionSetToStore

/-- `StoreWriter.processSelectionSet` with an explicit recursion budget. -/
def processSelectionSet (cfg : Config) (fuel : Nat) :
    WriteContext → JValue → SelectionSet → Option MergeOverrides → Option TypenameRt → WState →
      StoreObject × Option MergeOverrides × WState :=
  (writerAt cfg fuel).processSelectionSet

/-- `StoreWriter.processFieldValue` with an explicit recursion budget. -/
def processFieldValue (cfg : Config) (fuel : Nat) :
    WriteContext → JValue → FieldNode → WState → StoreValue × Option MergeOverrides × WState :=
  (writerAt cfg fuel).processFieldValue

/-- The operation definition of a query document: its declared variables
(name and optional default value) and its top-level selection set.
Modelled from the spec: the parser and fragment indexing are out of scope,
so a document arrives pre-split into its operation and fragment table. -/
structure Operation where
  variableDefinitions : List (String × Option JValue)
  selectionSet : SelectionSet

/-- A parsed query document (`DocumentNode`): `getOperationDefinition` and
`createFragmentMap (getFragmentDefinitions ...)` are modelled as the two
components. -/
structure DocumentNode where
  operation : Operation
  fragments : FragmentMap

/-- `getDefaultValues`.  Modelled from the spec: the bindings contributed by
the query's declared variables that carry default values. -/
def getDefaultValues (op : Operation) : List (String × JValue) :=
  op.variableDefinitions.filterMap fun p => p.2.map fun d => (p.1, d)

/-- The effective variable bindings of one write: the object spread
`\x7b ...getDefaultValues(op), ...vars \x7d`, under which a
caller-supplied binding wins over a declared default on every name. -/
def effectiveVariables (op : Operation) (varBindings : List (String × JValue)) : Vars :=
  fun k => (alookup k varBindings).orElse fun _ => alookup k (getDefaultValues op)

/-- The fresh write context built by `writeQueryToStore`. -/
def writeQueryContext (query : DocumentNode) (varBindings : List (String × JValue)) :
    WriteContext :=
  { vars := effectiveVariables query.operation varBindings
    fragmentMap := query.fragments }

/-- `result || Object.create(null)`: a falsy result object is replaced by an
empty one. -/
def resultOrEmptyObj (result : JValue) : JValue :=
  if jsTruthy result then result else .obj []

/-- `StoreWriter.writeQueryToStore`, the top-level entry point: default the
target key to the well-known root key, default the store to a freshly
constructed one, retain the target key as a root, resolve the effective
variables, and delegate to the selection-set writer with a fresh write
state.  The source returns the mutated store; the returned `WState` carries
it in its `store` field together with the observation-only warning and
commit logs. -/
def writeQueryToStore (cfg : Config) (fuel : Nat) (query : DocumentNode) (result : JValue)
    (dataIdOpt : Option String) (storeOpt : Option NormalizedCache)
    (varBindings : List (String × JValue)) : WState :=
  let dataId := dataIdOpt.getD "ROOT_QUERY"
  let store := (storeOpt.getD emptyCache).retain dataId
  writeSelectionSetToStore cfg fuel (writeQueryContext query varBindings) dataId
    (resultOrEmptyObj result) query.operation.selectionSet
    { store := store, written := [], warnings := [], log := [] }

/-- The spec's reading of the type-name priority order, written from the
spec's words for comparison against the implementation's `||` chain: the
first truthy candidate wins — a non-empty type-name string found on the
result object, else the truthy stored `__typename` value used as-is
(string or not), and when neither is truthy the outcome is exactly the
policy provider's default for the key. -/
def specTypenamePriority (fromResult : Option String) (fromStore : Option TypenameRt)
    (fromPolicy : Option String) : Option TypenameRt :=
  match fromResult.bind (fun t => if t = "" then none else some t) with
  | some t => some (.str t)
  | none =>
    match fromStore.bind (fun t => if typenameTruthy t then some t else none) with
    | some t => some t
    | none => fromPolicy.map .str

/-- One write state extends another: every (entity key, selection set) pair
recorded as written stays recorded, the commit log only grows at the tail,
and the retained-roots set of the store is untouched. -/
def StateExtends (s s' : WState) : Prop :=
  (∀ d ss, selSetsContain ((alookup d s.written).getD []) ss = true →
    selSetsContain ((alookup d s'.written).getD []) ss = true)
  ∧ (∃ t, s'.log = s.log ++ t)
  ∧ s'.store.rootIds = s.store.rootIds

/-- All three methods of a writer level only ever extend the write state. -/
def WriterExtends (W : WriterFuncs) : Prop :=
  (∀ ctx dataId result ss s, StateExtends s (W.writeSelectionSetToStore ctx dataId result ss s))
  ∧ (∀ ctx result ss ov tn s, StateExtends s (W.processSelectionSet ctx result ss ov tn s).2.2)
  ∧ (∀ ctx v f s, StateExtends s (W.processFieldValue ctx v f s).2.2)

/-- A field map carries the type name `t`: every entry stored under the
`__typename` key holds the string scalar `t`, and a lookup of `__typename`
finds it. -/
def TypenameOk (t : String) (m : StoreObject) : Prop :=
  (∀ p ∈ m, p.1 = "__typename" → p.2 = StoreValue.scalar (.str t))
  ∧ alookup "__typename" m = some (.scalar (.str t))

/-- A writer level persists a resolved type name that is a string through
`processSelectionSet` whenever the storage-key policy never maps a field to
the `__typename` slot. -/
def WriterTypenameOk (cfg : Config) (W : WriterFuncs) : Prop :=
  ∀ ctx result ss ov t s,
    (∀ f, cfg.policies.getStoreFieldName (some (.str t)) f ctx.vars ≠ "__typename") →
    TypenameOk t (W.processSelectionSet ctx result ss ov (some (.str t)) s).1

/-- An empty write state over an empty store, used by the concrete
scenarios. -/
def emptyState : WState := ⟨emptyCache, [], [], []⟩

/-- A write context with no variables and no fragments, used by the concrete
scenarios. -/
def plainContext : WriteContext := ⟨fun _ => none, []⟩

/-- A concrete policy provider for the scenarios: the root key's default
type name is `Query`, storage keys are plain field names, objects exposing a
string `__typename` and `id` are identified as `typename:id`, fragments
match on exact type-condition equality, and no custom merge functions
exist. -/
def demoPolicies : Policies where
  rootTypenamesById := fun k => if k = "ROOT_QUERY" then some "Query" else none
  usingPossibleTypes := false
  getStoreFieldName := fun _ f _ => f.name
  getFieldMergeFunction := fun _ _ _ => none
  identify := fun v _ _ =>
    match jget v "__typename", jget v "id" with
    | some (.str t), some (.str i) => some (t ++ ":" ++ i)
    | _, _ => none
  fragmentMatches := fun fr tn =>
    match fr.typeCondition with
    | none => true
    | some c =>
      match tn with
      | some (.str s) => decide (s = c)
      | _ => false

/-- The demo policies in the default (non-production) profile. -/
def demoConfig : Config := ⟨demoPolicies, false⟩

/-- Scenario query `\x7b me \x7b __typename id name \x7d \x7d`. -/
def demoSelectionSet : SelectionSet :=
  [.field (.mk none "me" "" [] (some
    [.field (.mk none "__typename" "" [] none),
     .field (.mk none "id" "" [] none),
     .field (.mk none "name" "" [] none)]))]

/-- Scenario result: `me` is an identifiable `User:1` entity. -/
def demoResult : JValue :=
  .obj [("me", .obj [("__typename", .str "User"), ("id", .str "1"), ("name", .str "A")])]

/-- A concatenating custom merge function over array scalars, as in the
spec's merge-function ordering example. -/
def concatMerge : StoreValueMergeFunction := fun e i =>
  match e, i with
  | some (.scalar (.arr a)), some (.scalar (.arr b)) => .scalar (.arr (a ++ b))
  | _, some v => v
  | _, none => .scalar .null

/-- Policies carrying `concatMerge` on the `list` field. -/
def concatPolicies : Policies :=
  { demoPolicies with
      getFieldMergeFunction := fun _ f _ =>
        if f.name = "list" then some concatMerge else none }

/-- The concatenation policies in the default profile. -/
def concatConfig : Config := ⟨concatPolicies, false⟩

/-- Pre-existing store for the merge-function scenario: entity `E` of type
`T` already holds the list `[1, 2]`. -/
def concatStore : NormalizedCache :=
  ⟨[("E", [("__typename", .scalar (.str "T")),
           ("list", .scalar (.arr [.num 1, .num 2]))])], []⟩

/-- Policies whose storage keys never collide with the `__typename` slot,
used to witness the amended type-name persistence claim. -/
def prefixedPolicies : Policies :=
  { demoPolicies with getStoreFieldName := fun _ _ _ => "k" }

/-- The prefixed policies in the default profile. -/
def prefixedConfig : Config := ⟨prefixedPolicies, false⟩

/-- The demo policies with strict possible-types checking enabled, used to
witness the missing-field warning. -/
def strictConfig : Config := ⟨{ demoPolicies with usingPossibleTypes := true }, false⟩

/-! ## Basic lemmas about the association-list operations -/

theorem alookup_aset_self {α : Type} (k : String) (v : α) (l : List (String × α)) :
    alookup k (aset k v l) = some v := by
  induction l with
  | nil => simp [aset, alookup]
  | cons p rest ih =>
    obtain ⟨k', v'⟩ := p
    by_cases h : k' = k <;> simp [aset, alookup, h, ih]

theorem alookup_aset_other {α : Type} (k k' : String) (hk : k' ≠ k) (v : α)
    (l : List (String × α)) : alookup k' (aset k v l) = alookup k' l := by
  induction l with
  | nil => simp [aset, alookup, Ne.symm hk]
  | cons p rest ih =>
    obtain ⟨k0, v0⟩ := p
    by_cases h : k0 = k
    · subst h
      simp [aset, alookup, Ne.symm hk]
    · simp [aset, h, alookup, ih]

/-! ## Reflexivity of the structural selection-set equality -/

mutual
theorem fieldNodeBeq_refl : ∀ f : FieldNode, FieldNode.beq f f = true
  | .mk a n g d s => by simp [FieldNode.beq, optSelsBeq_refl s]

theorem selectionBeq_refl : ∀ sel : Selection, Selection.beq sel sel = true
  | .field f => by simp [Selection.beq, fieldNodeBeq_refl f]
  | .inlineFragment t d sels => by simp [Selection.beq, selsBeq_refl sels]
  | .fragmentSpread n d => by simp [Selection.beq]

theorem selsBeq_refl : ∀ l : List Selection, selsBeq l l = true
  | [] => by simp [selsBeq]
  | a :: r => by simp [selsBeq, selectionBeq_refl a, selsBeq_refl r]

theorem optSelsBeq_refl : ∀ o : Option (List Selection), optSelsBeq o o = true
  | none => by simp [optSelsBeq]
  | some l => by simp [optSelsBeq, selsBeq_refl l]
end

theorem selSetsContain_append_self (sets : List SelectionSet) (ss : SelectionSet) :
    selSetsContain (sets ++ [ss]) ss = true := by
  simp [selSetsContain, List.any_append, List.any, selsBeq_refl]

theorem selSetsContain_mono (sets extra : List SelectionSet) (ss : SelectionSet)
    (h : selSetsContain sets ss = true) : selSetsContain (sets ++ extra) ss = true := by
  simp only [selSetsContain, List.any_append, Bool.or_eq_true]
  exact Or.inl h

/-! ## The defensive deep copy rebuilds a structurally equal value -/

mutual
theorem cloneDeep_eq : ∀ v : JValue, cloneDeep v = v
  | .null => rfl
  | .bool b => rfl
  | .num n => rfl
  | .str s => rfl
  | .arr xs => by simp [cloneDeep, cloneDeepList_eq xs]
  | .obj fs => by simp [cloneDeep, cloneDeepFields_eq fs]

theorem cloneDeepList_eq : ∀ xs : List JValue, cloneDeepList xs = xs
  | [] => rfl
  | x :: r => by simp [cloneDeepList, cloneDeep_eq x, cloneDeepList_eq r]

theorem cloneDeepFields_eq : ∀ fs : List (String × JValue), cloneDeepFields fs = fs
  | [] => rfl
  | (k, v) :: r => by simp [cloneDeepFields, cloneDeep_eq v, cloneDeepFields_eq r]
end

/-! ## The state-extension preorder -/

theorem stateExtends_refl (s : WState) : StateExtends s s :=
  ⟨fun _ _ h => h, ⟨[], by simp⟩, rfl⟩

theorem stateExtends_trans {a b c : WState} (h1 : StateExtends a b) (h2 : StateExtends b c) :
    StateExtends a c := by
  obtain ⟨w1, ⟨t1, l1⟩, r1⟩ := h1
  obtain ⟨w2, ⟨t2, l2⟩, r2⟩ := h2
  exact ⟨fun d ss h => w2 d ss (w1 d ss h), ⟨t1 ++ t2, by simp [l2, l1]⟩, by rw [r2, r1]⟩

theorem stateExtends_warn (s : WState) (w : List String) :
    StateExtends s { s with warnings := w } :=
  ⟨fun _ _ h => h, ⟨[], by simp⟩, rfl⟩

theorem stateExtends_push (s : WState) (dataId : String) (ss : SelectionSet) :
    StateExtends s
      { s with written := aset dataId (((alookup dataId s.written).getD []) ++ [ss]) s.written } := by
  refine ⟨?_, ⟨[], by simp⟩, rfl⟩
  intro d t h
  by_cases hd : d = dataId
  · subst hd
    simpa [alookup_aset_self] using selSetsContain_mono _ [ss] t h
  · simpa [alookup_aset_other dataId d hd] using h

/-! ## Every writer level only extends the write state -/

theorem writerZero_extends : WriterExtends writerZero :=
  ⟨fun _ _ _ _ s => stateExtends_refl s,
   fun _ _ _ _ _ s => stateExtends_refl s,
   fun _ _ _ s => stateExtends_refl s⟩

mutual
theorem processFieldValueAt_extends (cfg : Config) (prev : WriterFuncs)
    (hW : WriterExtends prev) (ctx : WriteContext) :
    ∀ (value : JValue) (field : FieldNode) (s : WState),
      StateExtends s (processFieldValueAt cfg prev ctx value field s).2.2
  | value, .mk al nm ag ds none, s => by
    simp only [processFieldValueAt, FieldNode.selectionSet]
    exact stateExtends_refl s
  | .null, .mk al nm ag ds (some ss), s => by
    simp only [processFieldValueAt, FieldNode.selectionSet]
    exact stateExtends_refl s
  | .arr xs, .mk al nm ag ds (some ss), s => by
    simp only [processFieldValueAt, FieldNode.selectionSet]
    exact processFieldValueListAt_extends cfg prev hW ctx xs (.mk al nm ag ds (some ss)) 0 s
  | .bool b, .mk al nm ag ds (some ss), s => by
    simp only [processFieldValueAt, FieldNode.selectionSet]
    split
    · exact hW.1 _ _ _ _ _
    · exact hW.2.1 _ _ _ _ _ _
  | .num n, .mk al nm ag ds (some ss), s => by
    simp only [processFieldValueAt, FieldNode.selectionSet]
    split
    · exact hW.1 _ _ _ _ _
    · exact hW.2.1 _ _ _ _ _ _
  | .str t, .mk al nm ag ds (some ss), s => by
    simp only [processFieldValueAt, FieldNode.selectionSet]
    split
    · exact hW.1 _ _ _ _ _
    · exact hW.2.1 _ _ _ _ _ _
  | .obj fs, .mk al nm ag ds (some ss), s => by
    simp only [processFieldValueAt, FieldNode.selectionSet]
    split
    · exact hW.1 _ _ _ _ _
    · exact hW.2.1 _ _ _ _ _ _
termination_by value field s => sizeOf value

theorem processFieldValueListAt_extends (cfg : Config) (prev : WriterFuncs)
    (hW : WriterExtends prev) (ctx : WriteContext) :
    ∀ (xs : List JValue) (field : FieldNode) (i : Nat) (s : WState),
      StateExtends s (processFieldValueListAt cfg prev ctx field i xs s).2.2
  | [], field, i, s => by
    simp only [processFieldValueListAt]
    exact stateExtends_refl s
  | x :: rest, field, i, s => by
    simp only [processFieldValueListAt]
    exact stateExtends_trans (processFieldValueAt_extends cfg prev hW ctx x field s)
      (processFieldValueListAt_extends cfg prev hW ctx rest field (i + 1) _)
termination_by xs field i s => sizeOf xs
end

theorem processSelectionsAt_extends (cfg : Config) (prev : WriterFuncs)
    (hW : WriterExtends prev) (ctx : WriteContext) (result : JValue)
    (typename : Option TypenameRt) :
    ∀ (sels : List Selection) (acc : StoreObject) (ov : Option MergeOverrides) (s : WState),
      StateExtends s (processSelectionsAt cfg prev ctx result typename sels acc ov s).2.2
  | [], acc, ov, s => by
    simp only [processSelectionsAt]
    exact stateExtends_refl s
  | sel :: rest, acc, ov, s => by
    simp only [processSelectionsAt]
    split
    · -- the selection is included
      split
      · -- field selection
        split
        · -- result value present
          exact stateExtends_trans (processFieldValueAt_extends cfg prev hW ctx _ _ s)
            (processSelectionsAt_extends cfg prev hW ctx result typename rest _ _ _)
        · -- result value absent: possibly warn, then continue
          refine stateExtends_trans ?_
            (processSelectionsAt_extends cfg prev hW ctx result typename rest _ _ _)
          split
          · exact stateExtends_warn s _
          · exact stateExtends_refl s
      · -- fragment selection
        split
        · split
          · exact stateExtends_trans (hW.2.1 _ _ _ _ _ _)
              (processSelectionsAt_extends cfg prev hW ctx result typename rest _ _ _)
          · exact processSelectionsAt_extends cfg prev hW ctx result typename rest _ _ _
        · exact processSelectionsAt_extends cfg prev hW ctx result typename rest _ _ _
    · exact processSelectionsAt_extends cfg prev hW ctx result typename rest _ _ _

theorem processSelectionSetAt_extends (cfg : Config) (prev : WriterFuncs)
    (hW : WriterExtends prev) (ctx : WriteContext) (result : JValue) (ss : SelectionSet)
    (ov : Option MergeOverrides) (tn : Option TypenameRt) (s : WState) :
    StateExtends s (processSelectionSetAt cfg prev ctx result ss ov tn s).2.2 :=
  processSelectionsAt_extends cfg prev hW ctx result tn ss (initialFields tn) ov s

theorem writeSelectionSetToStoreAt_extends (cfg : Config) (prev : WriterFuncs)
    (hW : WriterExtends prev) (ctx : WriteContext) (dataId : String) (result : JValue)
    (ss : SelectionSet) (s : WState) :
    StateExtends s (writeSelectionSetToStoreAt cfg prev ctx dataId result ss s) := by
  simp only [writeSelectionSetToStoreAt]
  split
  · exact stateExtends_refl s
  · refine stateExtends_trans (stateExtends_push s dataId ss) ?_
    refine stateExtends_trans
      (processSelectionSetAt_extends cfg prev hW ctx result ss none
        (resolveTypename cfg ctx s.store dataId result ss) _) ?_
    exact ⟨fun _ _ h => h, ⟨_, rfl⟩, by simp [NormalizedCache.mergeIn]⟩

theorem writerAt_extends (cfg : Config) : ∀ fuel : Nat, WriterExtends (writerAt cfg fuel)
  | 0 => writerZero_extends
  | fuel + 1 => by
    have ih := writerAt_extends cfg fuel
    refine ⟨fun ctx dataId result ss s => ?_, fun ctx result ss ov tn s => ?_,
      fun ctx v f s => ?_⟩
    · exact writeSelectionSetToStoreAt_extends cfg _ ih ctx dataId result ss s
    · exact processSelectionSetAt_extends cfg _ ih ctx result ss ov tn s
    · exact processFieldValueAt_extends cfg _ ih ctx v f s

/-! ## Persistence of the resolved type name through the selection processor -/

theorem mem_aset {α : Type} (k : String) (v : α) (l : List (String × α))
    (p : String × α) (hp : p ∈ aset k v l) : p = (k, v) ∨ p ∈ l := by
  induction l with
  | nil => simpa [aset] using hp
  | cons q rest ih =>
    obtain ⟨k0, v0⟩ := q
    by_cases h : k0 = k
    · subst h
      simp only [aset, if_pos rfl] at hp
      rcases List.mem_cons.mp hp with h1 | h1
      · exact Or.inl h1
      · exact Or.inr (List.mem_cons_of_mem _ h1)
    · simp only [aset, if_neg h] at hp
      rcases List.mem_cons.mp hp with h1 | h1
      · exact Or.inr (h1 ▸ List.mem_cons_self _ _)
      · rcases ih h1 with h2 | h2
        · exact Or.inl h2
        · exact Or.inr (List.mem_cons_of_mem _ h2)

theorem deepMergeSV_scalar (ev : StoreValue) (x : JValue) :
    deepMergeSV ev (.scalar x) = .scalar x := by
  cases ev <;> simp [deepMergeSV]

theorem typenameOk_aset (t : String) (m : StoreObject) (k : String) (v : StoreValue)
    (h : TypenameOk t m) (hk : k ≠ "__typename") : TypenameOk t (aset k v m) := by
  obtain ⟨hmem, hlook⟩ := h
  refine ⟨?_, ?_⟩
  · intro p hp h1
    rcases mem_aset k v m p hp with h2 | h2
    · rw [h2] at h1
      exact absurd h1 hk
    · exact hmem p h2 h1
  · rw [alookup_aset_other k "__typename" (Ne.symm hk) v m]
    exact hlook

theorem typenameOk_deepMergeEntries (t : String) :
    ∀ (i : List (String × StoreValue)) (e : StoreObject), TypenameOk t e →
      (∀ p ∈ i, p.1 = "__typename" → p.2 = StoreValue.scalar (.str t)) →
      TypenameOk t (deepMergeEntries e i)
  | [], e, he, hi => by simpa [deepMergeEntries] using he
  | (k, iv) :: rest, e, he, hi => by
    simp only [deepMergeEntries]
    by_cases hk : k = "__typename"
    · subst hk
      have hiv : iv = StoreValue.scalar (.str t) := hi ("__typename", iv) (by simp) rfl
      subst hiv
      refine typenameOk_deepMergeEntries t rest _ ?_
        (fun p hp h1 => hi p (List.mem_cons_of_mem _ hp) h1)
      have hm : (match alookup "__typename" e with
          | some ev => deepMergeSV ev (StoreValue.scalar (.str t))
          | none => StoreValue.scalar (.str t)) = StoreValue.scalar (.str t) := by
        rcases alookup "__typename" e with _ | ev <;> simp [deepMergeSV_scalar]
      rw [hm]
      refine ⟨?_, alookup_aset_self _ _ _⟩
      intro p hp h1
      rcases mem_aset _ _ _ p hp with h2 | h2
      · rw [h2]
      · exact he.1 p h2 h1
    · exact typenameOk_deepMergeEntries t rest _
        (typenameOk_aset t e k _ he hk)
        (fun p hp h1 => hi p (List.mem_cons_of_mem _ hp) h1)

theorem typenameOk_initial (t : String) : TypenameOk t (initialFields (some (.str t))) := by
  refine ⟨?_, ?_⟩
  · intro p hp h1
    simp only [initialFields, List.mem_singleton] at hp
    rw [hp]
  · simp [initialFields, alookup]

theorem processSelectionsAt_typename (cfg : Config) (prev : WriterFuncs)
    (hW : WriterTypenameOk cfg prev) (ctx : WriteContext) (result : JValue) (t : String)
    (hsf : ∀ f, cfg.policies.getStoreFieldName (some (.str t)) f ctx.vars ≠ "__typename") :
    ∀ (sels : List Selection) (acc : StoreObject) (ov : Option MergeOverrides) (s : WState),
      TypenameOk t acc →
      TypenameOk t (processSelectionsAt cfg prev ctx result (some (.str t)) sels acc ov s).1
  | [], acc, ov, s, hacc => by simpa [processSelectionsAt] using hacc
  | sel :: rest, acc, ov, s, hacc => by
    simp only [processSelectionsAt]
    split
    · split
      · -- field selection
        split
        · -- result value present: fold the produced value in under its storage key
          refine processSelectionsAt_typename cfg prev hW ctx result t hsf rest _ _ _ ?_
          refine typenameOk_deepMergeEntries t _ acc hacc ?_
          intro p hp h1
          simp only [List.mem_singleton] at hp
          exact absurd (by rw [hp] at h1; exact h1) (hsf _)
        · -- result value absent
          exact processSelectionsAt_typename cfg prev hW ctx result t hsf rest _ _ _ hacc
      · -- fragment selection
        split
        · split
          · -- matching fragment: merge the recursively processed field map
            refine processSelectionsAt_typename cfg prev hW ctx result t hsf rest _ _ _ ?_
            exact typenameOk_deepMergeEntries t _ acc hacc
              (hW ctx result _ ov t s hsf).1
          · exact processSelectionsAt_typename cfg prev hW ctx result t hsf rest _ _ _ hacc
        · exact processSelectionsAt_typename cfg prev hW ctx result t hsf rest _ _ _ hacc
    · exact processSelectionsAt_typename cfg prev hW ctx result t hsf rest _ _ _ hacc

theorem writerAt_typenameOk (cfg : Config) : ∀ fuel : Nat, WriterTypenameOk cfg (writerAt cfg fuel)
  | 0 => fun ctx result ss ov t s hsf => by
    simpa [writerAt, writerZero] using typenameOk_initial t
  | fuel + 1 => fun ctx result ss ov t s hsf => by
    have ih := writerAt_typenameOk cfg fuel
    simp only [writerAt, processSelectionSetAt]
    exact processSelectionsAt_typename cfg _ ih ctx result t hsf ss _ ov s (typenameOk_initial t)

/-! ## Skipping a non-matching fragment is invisible to the processor -/

theorem processSelectionsAt_skip_fragment (cfg : Config) (prev : WriterFuncs)
    (ctx : WriteContext) (result : JValue) (typename : Option TypenameRt) (frag : Selection)
    (fr : FragmentDef)
    (hfield : ∀ f, frag ≠ Selection.field f)
    (hfr : getFragmentFromSelection frag ctx.fragmentMap = some fr)
    (hmatch : cfg.policies.fragmentMatches fr typename = false) :
    ∀ (pre post : List Selection) (acc : StoreObject) (ov : Option MergeOverrides) (s : WState),
      processSelectionsAt cfg prev ctx result typename (pre ++ frag :: post) acc ov s
        = processSelectionsAt cfg prev ctx result typename (pre ++ post) acc ov s
  | [], post, acc, ov, s => by
    cases frag with
    | field f => exact absurd rfl (hfield f)
    | inlineFragment tc ds sels =>
      simp only [getFragmentFromSelection, Option.some.injEq] at hfr
      subst hfr
      simp only [List.nil_append, processSelectionsAt, getFragmentFromSelection, hmatch]
      split <;> rfl
    | fragmentSpread n ds =>
      simp only [getFragmentFromSelection] at hfr
      simp only [List.nil_append, processSelectionsAt, getFragmentFromSelection, hfr, hmatch]
      split <;> rfl
  | a :: pre, post, acc, ov, s => by
    simp only [List.cons_append, processSelectionsAt]
    split
    · split
      · split
        · exact processSelectionsAt_skip_fragment cfg prev ctx result typename frag fr
            hfield hfr hmatch pre post _ _ _
        · exact processSelectionsAt_skip_fragment cfg prev ctx result typename frag fr
            hfield hfr hmatch pre post _ _ _
      · split
        · split
          · exact processSelectionsAt_skip_fragment cfg prev ctx result typename frag fr
              hfield hfr hmatch pre post _ _ _
          · exact processSelectionsAt_skip_fragment cfg prev ctx result typename frag fr
              hfield hfr hmatch pre post _ _ _
        · exact processSelectionsAt_skip_fragment cfg prev ctx result typename frag fr
            hfield hfr hmatch pre post _ _ _
    · exact processSelectionsAt_skip_fragment cfg prev ctx result typename frag fr
        hfield hfr hmatch pre post _ _ _

/-! ## Small unfolding helpers for the claim theorems -/

theorem writerAt_succ (cfg : Config) (fuel : Nat) :
    writerAt cfg (fuel + 1)
      = ⟨writeSelectionSetToStoreAt cfg (writerAt cfg fuel),
         processSelectionSetAt cfg (writerAt cfg fuel),
         processFieldValueAt cfg (writerAt cfg fuel)⟩ := rfl

theorem mem_retain_rootIds (c : NormalizedCache) (dataId : String) :
    dataId ∈ (c.retain dataId).rootIds := by
  simp only [NormalizedCache.retain]
  split
  · assumption
  · exact List.mem_cons_self _ _

/-! ## Claim theorems -/

/-- C1: if the (entity key, selection set) pair has already been processed in
this write context's dedup table, `writeSelectionSetToStore` returns the
store immediately without modifying it, and consequently writing the same
(entity key, selection set) pair twice within one top-level call produces
exactly the same store state as writing it once. -/
theorem writeSelectionSet_idempotent_reentry (cfg : Config) :
    (∀ (fuel : Nat) (ctx : WriteContext) (dataId : String) (result : JValue)
        (ss : SelectionSet) (s : WState),
      selSetsContain ((alookup dataId s.written).getD []) ss = true →
      writeSelectionSetToStore cfg (fuel + 1) ctx dataId result ss s = s)
    ∧ ∀ (fuel1 fuel2 : Nat) (ctx : WriteContext) (dataId : String) (result : JValue)
        (ss : SelectionSet) (s : WState),
      writeSelectionSetToStore cfg fuel2 ctx dataId result ss
          (writeSelectionSetToStore cfg (fuel1 + 1) ctx dataId result ss s)
        = writeSelectionSetToStore cfg (fuel1 + 1) ctx dataId result ss s := by
  have hguard : ∀ (fuel : Nat) (ctx : WriteContext) (dataId : String) (result : JValue)
      (ss : SelectionSet) (s : WState),
      selSetsContain ((alookup dataId s.written).getD []) ss = true →
      writeSelectionSetToStore cfg (fuel + 1) ctx dataId result ss s = s := by
    intro fuel ctx dataId result ss s h
    simp only [writeSelectionSetToStore, writerAt_succ, writeSelectionSetToStoreAt]
    rw [if_pos h]
  refine ⟨hguard, ?_⟩
  intro fuel1 fuel2 ctx dataId result ss s
  have hrec : selSetsContain
      ((alookup dataId
        (writeSelectionSetToStore cfg (fuel1 + 1) ctx dataId result ss s).written).getD [])
      ss = true := by
    by_cases h : selSetsContain ((alookup dataId s.written).getD []) ss = true
    · rw [hguard fuel1 ctx dataId result ss s h]
      exact h
    · simp only [writeSelectionSetToStore, writerAt_succ, writeSelectionSetToStoreAt]
      rw [if_neg h]
      have hmem1 : selSetsContain
          ((alookup dataId
            (aset dataId (((alookup dataId s.written).getD []) ++ [ss]) s.written)).getD [])
          ss = true := by
        rw [alookup_aset_self]
        simpa using selSetsContain_append_self _ ss
      exact (processSelectionSetAt_extends cfg _ (writerAt_extends cfg fuel1) ctx result ss none
        _ _).1 dataId ss hmem1
  cases fuel2 with
  | zero => simp [writeSelectionSetToStore, writerAt, writerZero]
  | succ f2 => exact hguard f2 ctx dataId result ss _ hrec

/-- Witness for C1: a concrete already-written pair makes the writer return
its input state unchanged. -/
theorem writeSelectionSet_idempotent_reentry_witness :
    selSetsContain ((alookup "K"
        ([("K", [([] : SelectionSet)])] : List (String × List SelectionSet))).getD [])
      ([] : SelectionSet) = true
    ∧ writeSelectionSetToStore demoConfig 1 plainContext "K" (.obj []) []
        ⟨emptyCache, [("K", [[]])], [], []⟩
      = ⟨emptyCache, [("K", [[]])], [], []⟩ := by
  have h : selSetsContain ((alookup "K"
      ([("K", [([] : SelectionSet)])] : List (String × List SelectionSet))).getD [])
      ([] : SelectionSet) = true := by
    simp [alookup, selSetsContain, List.any, selsBeq]
  exact ⟨h, (writeSelectionSet_idempotent_reentry demoConfig).1 0 plainContext "K" (.obj []) []
    ⟨emptyCache, [("K", [[]])], [], []⟩ h⟩

/-- C2 (counterexample): the claimed priority order fails as stated.  With a
result object whose own type-name field is the empty string and a stored
type name `Cat`, the type-name finder does find the result's type name, yet
the resolution — JavaScript `||` — skips it because the empty string is
falsy, and uses the stored `Cat` instead. -/
theorem resolveTypename_counterexample :
    getTypenameFromResult (.obj [("__typename", .str "")]) [] [] = some ""
    ∧ resolveTypename demoConfig plainContext
        ⟨[("X", [("__typename", .scalar (.str "Cat"))])], []⟩ "X"
        (.obj [("__typename", .str "")]) []
      = some (.str "Cat")
    ∧ (some (TypenameRt.str "Cat") : Option TypenameRt) ≠ some (.str "") := by
  refine ⟨by with_unfolding_all rfl, by with_unfolding_all rfl, by simp⟩

/-- C2 (amended): the type name used for processing is resolved in this
fixed priority order with JavaScript `||` semantics, the first truthy
candidate winning: (1) a non-empty type-name string found directly on the
result object, (2) the truthy `__typename` value already stored under the
entity key, used as-is even when it is not a string (the source's
`as string` is a compile-time cast with no runtime effect), (3) otherwise
exactly the policy provider's default for the key; if none yields a value,
processing proceeds with no type name. -/
theorem resolveTypename_priority (cfg : Config) (ctx : WriteContext)
    (store : NormalizedCache) (dataId : String) (result : JValue) (ss : SelectionSet) :
    resolveTypename cfg ctx store dataId result ss
      = specTypenamePriority (getTypenameFromResult result ss ctx.fragmentMap)
          (storedTypename store dataId) (cfg.policies.rootTypenamesById dataId) := by
  simp only [resolveTypename, specTypenamePriority, jsOrTypename]
  rcases getTypenameFromResult result ss ctx.fragmentMap with _ | t
  · rcases storedTypename store dataId with _ | u
    · simp
    · rcases u with s | v
      · by_cases hs : s = "" <;> simp [typenameTruthy, hs]
      · by_cases hv : svTruthy v = true <;> simp [typenameTruthy, hv]
  · by_cases ht : t = ""
    · subst ht
      rcases storedTypename store dataId with _ | u
      · simp [typenameTruthy]
      · rcases u with s | v
        · by_cases hs : s = "" <;> simp [typenameTruthy, hs]
        · by_cases hv : svTruthy v = true <;> simp [typenameTruthy, hv]
    · simp [typenameTruthy, ht]

/-- C3: a non-null object value under a field with a nested selection set is
written as its own entity and replaced by a reference when the policy
provider identifies it; otherwise it is processed inline and stored as an
embedded object value, with no reference created. -/
theorem processFieldValue_entity_or_embedded (cfg : Config) (fuel : Nat) (ctx : WriteContext)
    (fs : List (String × JValue)) (al : Option String) (nm ag : String)
    (ds : List Directive) (ss : SelectionSet) (s : WState) :
    (∀ dataId, cfg.policies.identify (.obj fs) ss ctx.fragmentMap = some dataId →
      processFieldValue cfg (fuel + 1) ctx (.obj fs) (.mk al nm ag ds (some ss)) s
        = (.ref dataId, none,
            writeSelectionSetToStore cfg fuel ctx dataId (.obj fs) ss s))
    ∧ (cfg.policies.identify (.obj fs) ss ctx.fragmentMap = none →
      processFieldValue cfg (fuel + 1) ctx (.obj fs) (.mk al nm ag ds (some ss)) s
        = (.obj (processSelectionSet cfg fuel ctx (.obj fs) ss none
              ((getTypenameFromResult (.obj fs) ss ctx.fragmentMap).map TypenameRt.str) s).1,
           (processSelectionSet cfg fuel ctx (.obj fs) ss none
              ((getTypenameFromResult (.obj fs) ss ctx.fragmentMap).map TypenameRt.str) s).2.1,
           (processSelectionSet cfg fuel ctx (.obj fs) ss none
              ((getTypenameFromResult (.obj fs) ss ctx.fragmentMap).map TypenameRt.str) s).2.2)) := by
  constructor
  · intro dataId hid
    simp [processFieldValue, writerAt_succ, processFieldValueAt, FieldNode.selectionSet,
      jsTruthy, hid, writeSelectionSetToStore]
  · intro hid
    simp [processFieldValue, writerAt_succ, processFieldValueAt, FieldNode.selectionSet,
      jsTruthy, hid, processSelectionSet]

/-- Witness for C3: a concrete identifiable object becomes a reference and a
recursive entity write. -/
theorem processFieldValue_entity_or_embedded_witness :
    demoConfig.policies.identify (.obj [("__typename", .str "User"), ("id", .str "1")]) []
        plainContext.fragmentMap = some "User:1"
    ∧ processFieldValue demoConfig 1 plainContext
        (.obj [("__typename", .str "User"), ("id", .str "1")])
        (.mk none "me" "" [] (some [])) emptyState
      = (.ref "User:1", none,
          writeSelectionSetToStore demoConfig 0 plainContext "User:1"
            (.obj [("__typename", .str "User"), ("id", .str "1")]) [] emptyState) := by
  have h : demoConfig.policies.identify (.obj [("__typename", .str "User"), ("id", .str "1")])
      [] plainContext.fragmentMap = some "User:1" := by with_unfolding_all rfl
  exact ⟨h, (processFieldValue_entity_or_embedded demoConfig 0 plainContext
    [("__typename", .str "User"), ("id", .str "1")] none "me" "" [] [] emptyState).1
    "User:1" h⟩

/-- C4: a fragment selection whose type condition does not match the
resolved type name is skipped entirely: it contributes no fields to the
accumulated field map, no entries to the overrides tree, causes no store
writes and emits no missing-field diagnostics — processing a selection set
with the fragment equals processing the selection set without it. -/
theorem fragment_gating (cfg : Config) (fuel : Nat) (ctx : WriteContext) (result : JValue)
    (typename : Option TypenameRt) :
    (∀ (tc : Option String) (ds : List Directive) (sels : SelectionSet),
      cfg.policies.fragmentMatches ⟨tc, sels⟩ typename = false →
      ∀ (pre post : List Selection) (ov : Option MergeOverrides) (s : WState),
        processSelectionSet cfg fuel ctx result
            (pre ++ Selection.inlineFragment tc ds sels :: post) ov typename s
          = processSelectionSet cfg fuel ctx result (pre ++ post) ov typename s)
    ∧ (∀ (n : String) (ds : List Directive) (fr : FragmentDef),
      alookup n ctx.fragmentMap = some fr →
      cfg.policies.fragmentMatches fr typename = false →
      ∀ (pre post : List Selection) (ov : Option MergeOverrides) (s : WState),
        processSelectionSet cfg fuel ctx result
            (pre ++ Selection.fragmentSpread n ds :: post) ov typename s
          = processSelectionSet cfg fuel ctx result (pre ++ post) ov typename s) := by
  cases fuel with
  | zero => exact ⟨fun _ _ _ _ _ _ _ _ => by simp [processSelectionSet, writerAt, writerZero],
      fun _ _ _ _ _ _ _ _ _ => by simp [processSelectionSet, writerAt, writerZero]⟩
  | succ f =>
    constructor
    · intro tc ds sels hm pre post ov s
      simp only [processSelectionSet, writerAt_succ, processSelectionSetAt]
      exact processSelectionsAt_skip_fragment cfg _ ctx result typename
        (Selection.inlineFragment tc ds sels) ⟨tc, sels⟩
        (fun f0 h => Selection.noConfusion h) rfl hm pre post _ ov s
    · intro n ds fr hfr hm pre post ov s
      simp only [processSelectionSet, writerAt_succ, processSelectionSetAt]
      exact processSelectionsAt_skip_fragment cfg _ ctx result typename
        (Selection.fragmentSpread n ds) fr
        (fun f0 h => Selection.noConfusion h) hfr hm pre post _ ov s

/-- Witness for C4: a fragment conditioned on `Dog` contributes nothing when
the resolved type name is `Cat`. -/
theorem fragment_gating_witness :
    demoConfig.policies.fragmentMatches ⟨some "Dog", []⟩ (some (.str "Cat")) = false
    ∧ processSelectionSet demoConfig 1 plainContext (.obj [])
        [Selection.inlineFragment (some "Dog") [] []] none (some (.str "Cat")) emptyState
      = processSelectionSet demoConfig 1 plainContext (.obj []) [] none (some (.str "Cat"))
          emptyState := by
  have h : demoConfig.policies.fragmentMatches ⟨some "Dog", []⟩ (some (.str "Cat")) = false := by
    with_unfolding_all rfl
  exact ⟨h, (fragment_gating demoConfig 1 plainContext (.obj []) (some (.str "Cat"))).1
    (some "Dog") [] [] h [] [] none emptyState⟩

/-- C5: a field selection whose result key is absent from the result object
is omitted from the stored field map (the accumulated map and overrides are
untouched) and the write continues with the remaining selections; a
warning-level diagnostic is recorded exactly when strict possible-types
checking is enabled and the field carries neither a `defer` nor a `client`
directive; the absence never aborts the write. -/
theorem missing_field_warns_and_continues (cfg : Config) (prev : WriterFuncs)
    (ctx : WriteContext) (result : JValue) (typename : Option TypenameRt) (f : FieldNode)
    (rest : List Selection) (acc : StoreObject) (ov : Option MergeOverrides) (s : WState)
    (hinc : shouldInclude (.field f) ctx.vars = true)
    (habs : jget result (resultKeyNameFromField f) = none) :
    processSelectionsAt cfg prev ctx result typename (Selection.field f :: rest) acc ov s
      = processSelectionsAt cfg prev ctx result typename rest acc ov
          (if cfg.policies.usingPossibleTypes && !(hasDeferOrClientDirective f)
            then { s with warnings := s.warnings ++ [resultKeyNameFromField f] }
            else s) := by
  simp only [processSelectionsAt, hinc, habs, if_true]

/-- Witness for C5: a concrete absent field under strict checking records
one warning and leaves the accumulator untouched. -/
theorem missing_field_warns_and_continues_witness :
    shouldInclude (.field (.mk none "nm" "" [] none)) plainContext.vars = true
    ∧ jget (.obj []) (resultKeyNameFromField (.mk none "nm" "" [] none)) = none
    ∧ processSelectionsAt strictConfig writerZero plainContext (.obj []) none
        [Selection.field (.mk none "nm" "" [] none)] [] none emptyState
      = processSelectionsAt strictConfig writerZero plainContext (.obj []) none [] [] none
          { emptyState with warnings := ["nm"] } := by
  have h1 : shouldInclude (.field (.mk none "nm" "" [] none)) plainContext.vars = true := by
    with_unfolding_all rfl
  have h2 : jget (.obj []) (resultKeyNameFromField (.mk none "nm" "" [] none)) = none := by
    with_unfolding_all rfl
  refine ⟨h1, h2, ?_⟩
  have h3 := missing_field_warns_and_continues strictConfig writerZero plainContext (.obj [])
    none (.mk none "nm" "" [] none) [] [] none emptyState h1 h2
  simpa [strictConfig, demoPolicies, hasDeferOrClientDirective, resultKeyNameFromField,
    FieldNode.directives, FieldNode.aliasName, FieldNode.name, emptyState] using h3

set_option maxRecDepth 20000 in
/-- C6: the merge-override walker is depth-first — at a position carrying
both a nested subtree and a merge function, the subtree is fully walked
first and the position's merge function then receives the pre-write existing
value and the child-adjusted incoming value, overwriting the incoming
position.  In the pure embedding the existing value is immutable by
construction, and on the spec's example — existing stored list `[1,2]`,
incoming `[3,4]`, concatenating merge function — the committed value is
`[1,2,3,4]`. -/
theorem merge_override_walker_order :
    (∀ (eo io : Option StoreValue) (name : String) (m : StoreValueMergeFunction)
        (c : MergeOverrides)
        (rest : List (String × Option StoreValueMergeFunction × Option MergeOverrides)),
      walkOverridesEntries eo io ((name, some m, some c) :: rest)
        = walkOverridesEntries eo
            (svSet (svSetOpt io name
                (walkWithMergeOverrides (svGet eo name) (svGet io name) c))
              name (m (svGet eo name) (walkWithMergeOverrides (svGet eo name) (svGet io name) c)))
            rest)
    ∧ (writeSelectionSetToStore concatConfig 2 plainContext "E"
        (.obj [("list", .arr [.num 3, .num 4])])
        [Selection.field (.mk none "list" "" [] none)]
        ⟨concatStore, [], [], []⟩).store.get "E"
      = some [("__typename", .scalar (.str "T")),
              ("list", .scalar (.arr [.num 1, .num 2, .num 3, .num 4]))] := by
  constructor
  · intro eo io name m c rest
    simp [walkOverridesEntries]
  · with_unfolding_all rfl

/-- C7: a value under a field with no nested selection set, or a null value,
is stored as a scalar leaf; under the default (non-production) profile the
stored value is the defensive deep copy `cloneDeep value`, and that copy is
structurally equal to the input (`cloneDeep` rebuilds the value node by
node, so the stored copy shares no structure with the caller's input — the
aliasing-freedom the spec asks for). -/
theorem scalar_leaf_deep_copy (cfg : Config) (fuel : Nat) (ctx : WriteContext)
    (value : JValue) (al : Option String) (nm ag : String) (ds : List Directive)
    (sub : Option SelectionSet) (s : WState) (hprod : cfg.production = false) :
    (processFieldValue cfg (fuel + 1) ctx value (.mk al nm ag ds none) s
      = (.scalar (cloneDeep value), none, s))
    ∧ (processFieldValue cfg (fuel + 1) ctx .null (.mk al nm ag ds sub) s
      = (.scalar (cloneDeep JValue.null), none, s))
    ∧ cloneDeep value = value := by
  refine ⟨?_, ?_, cloneDeep_eq value⟩
  · simp [processFieldValue, writerAt_succ, processFieldValueAt, FieldNode.selectionSet, hprod]
  · cases sub with
    | none =>
      simp [processFieldValue, writerAt_succ, processFieldValueAt, FieldNode.selectionSet, hprod]
    | some ss =>
      simp [processFieldValue, writerAt_succ, processFieldValueAt, FieldNode.selectionSet, hprod]

/-- Witness for C7: a concrete string leaf is stored as its deep copy. -/
theorem scalar_leaf_deep_copy_witness :
    demoConfig.production = false
    ∧ processFieldValue demoConfig 1 plainContext (.str "x") (.mk none "nm" "" [] none)
        emptyState
      = (.scalar (cloneDeep (.str "x")), none, emptyState)
    ∧ cloneDeep (JValue.str "x") = .str "x" := by
  have h := scalar_leaf_deep_copy demoConfig 0 plainContext (.str "x") none "nm" "" [] none
    emptyState rfl
  exact ⟨rfl, h.1, h.2.2⟩

/-- C8: the top-level entry point resolves the effective variables as the
query's declared defaults overlaid with the caller-supplied bindings
(caller values winning on every name), retains the target entity key
(defaulting to `ROOT_QUERY`) as a root in the store before any writing,
uses a freshly constructed store when none is supplied, and delegates to
the selection-set writer with a fresh write context. -/
theorem writeQueryToStore_entry (cfg : Config) (fuel : Nat) (q : DocumentNode)
    (result : JValue) (dOpt : Option String) (stOpt : Option NormalizedCache)
    (vb : List (String × JValue)) :
    (∀ k, (writeQueryContext q vb).vars k
        = match alookup k vb with
          | some v => some v
          | none => alookup k (getDefaultValues q.operation))
    ∧ writeQueryToStore cfg fuel q result dOpt stOpt vb
        = writeSelectionSetToStore cfg fuel (writeQueryContext q vb) (dOpt.getD "ROOT_QUERY")
            (resultOrEmptyObj result) q.operation.selectionSet
            ⟨(stOpt.getD emptyCache).retain (dOpt.getD "ROOT_QUERY"), [], [], []⟩
    ∧ (dOpt.getD "ROOT_QUERY") ∈ (writeQueryToStore cfg fuel q result dOpt stOpt vb).store.rootIds
    ∧ writeQueryToStore cfg fuel q result dOpt none vb
        = writeQueryToStore cfg fuel q result dOpt (some emptyCache) vb := by
  refine ⟨?_, rfl, ?_, rfl⟩
  · intro k
    simp only [writeQueryContext, effectiveVariables]
    rcases h : alookup k vb with _ | v <;> simp [h, Option.orElse]
  · have hr := ((writerAt_extends cfg fuel).1 (writeQueryContext q vb) (dOpt.getD "ROOT_QUERY")
      (resultOrEmptyObj result) q.operation.selectionSet
      ⟨(stOpt.getD emptyCache).retain (dOpt.getD "ROOT_QUERY"), [], [], []⟩).2.2
    have heq : writeQueryToStore cfg fuel q result dOpt stOpt vb
        = writeSelectionSetToStore cfg fuel (writeQueryContext q vb) (dOpt.getD "ROOT_QUERY")
            (resultOrEmptyObj result) q.operation.selectionSet
            ⟨(stOpt.getD emptyCache).retain (dOpt.getD "ROOT_QUERY"), [], [], []⟩ := rfl
    rw [heq]
    simp only [writeSelectionSetToStore]
    rw [hr]
    exact mem_retain_rootIds _ _

/-- C9 (counterexample): the field map returned by the selection-set
processor need not carry the invocation's resolved type name — a selected
type-name field whose result value is the number `5` overwrites the
initially recorded type name `Cat`. -/
theorem processSelectionSet_typename_counterexample :
    (processSelectionSet demoConfig 1 plainContext (.obj [("__typename", .num 5)])
        [Selection.field (.mk none "__typename" "" [] none)] none (some (.str "Cat"))
        emptyState).1
      = [("__typename", .scalar (.num 5))]
    ∧ StoreValue.scalar (.num 5) ≠ StoreValue.scalar (.str "Cat") := by
  refine ⟨by with_unfolding_all rfl, ?_⟩
  intro h
  injection h with h2
  exact JValue.noConfusion h2

/-- C9 (amended): for every invocation of the selection-set processor with a
resolved type name (a string), the returned field map contains a
`__typename` entry equal to that type name, provided the storage-key policy
never maps a field selection to the `__typename` slot under the
invocation's variables — in particular whenever `__typename` is not among
the stored fields.  (Without that proviso a conflicting selected type-name
value overwrites the entry, as the counterexample shows.) -/
theorem processSelectionSet_typename_persisted (cfg : Config) (fuel : Nat)
    (ctx : WriteContext) (result : JValue) (ss : SelectionSet) (ov : Option MergeOverrides)
    (t : String) (s : WState)
    (hsf : ∀ f, cfg.policies.getStoreFieldName (some (.str t)) f ctx.vars ≠ "__typename") :
    alookup "__typename" (processSelectionSet cfg fuel ctx result ss ov (some (.str t)) s).1
      = some (.scalar (.str t)) :=
  (writerAt_typenameOk cfg fuel ctx result ss ov t s hsf).2

/-- Witness for C9 (amended) under a storage-key policy that never uses the
`__typename` slot. -/
theorem processSelectionSet_typename_persisted_witness :
    (∀ f, prefixedConfig.policies.getStoreFieldName (some (.str "T")) f plainContext.vars
      ≠ "__typename")
    ∧ alookup "__typename" (processSelectionSet prefixedConfig 1 plainContext (.obj [])
        [] none (some (.str "T")) emptyState).1 = some (.scalar (.str "T")) := by
  have h : ∀ f, prefixedConfig.policies.getStoreFieldName (some (.str "T")) f plainContext.vars
      ≠ "__typename" := fun f => by simp [prefixedConfig, prefixedPolicies]
  exact ⟨h, processSelectionSet_typename_persisted prefixedConfig 1 plainContext (.obj [])
    [] none "T" emptyState h⟩

set_option maxRecDepth 20000 in
/-- C10: within one write, a parent entity's field map is committed strictly
after everything committed while processing its selections — the parent's
own `store.merge` is the final entry its `writeSelectionSetToStore` call
appends to the commit log — and on the concrete nested scenario the child
entity `User:1` is committed strictly before its parent `ROOT_QUERY`. -/
theorem child_entity_committed_before_parent (cfg : Config) :
    (∀ (fuel : Nat) (ctx : WriteContext) (dataId : String) (result : JValue)
        (ss : SelectionSet) (s : WState),
      selSetsContain ((alookup dataId s.written).getD []) ss = false →
      ∃ mid fields,
        (writeSelectionSetToStore cfg (fuel + 1) ctx dataId result ss s).log
          = s.log ++ mid ++ [(dataId, fields)])
    ∧ (writeQueryToStore demoConfig 10 ⟨⟨[], demoSelectionSet⟩, []⟩ demoResult
        none none []).log
      = [("User:1", [("__typename", .scalar (.str "User")), ("id", .scalar (.str "1")),
            ("name", .scalar (.str "A"))]),
         ("ROOT_QUERY", [("__typename", .scalar (.str "Query")), ("me", .ref "User:1")])] := by
  constructor
  · intro fuel ctx dataId result ss s h
    simp only [writeSelectionSetToStore, writerAt_succ, writeSelectionSetToStoreAt]
    rw [if_neg (by simp [h])]
    obtain ⟨mid, hmid⟩ := (processSelectionSetAt_extends cfg _ (writerAt_extends cfg fuel) ctx
      result ss none (resolveTypename cfg ctx s.store dataId result ss)
      { s with written := aset dataId (((alookup dataId s.written).getD []) ++ [ss]) s.written
      }).2.1
    exact ⟨mid, _, by rw [hmid]⟩
  · with_unfolding_all rfl

/-- Witness for C10 on a fresh state, where the parent's commit is the last
log entry of its write. -/
theorem child_entity_committed_before_parent_witness :
    selSetsContain ((alookup "K" (emptyState.written)).getD []) [] = false
    ∧ ∃ mid fields,
      (writeSelectionSetToStore demoConfig 1 plainContext "K" (.obj []) [] emptyState).log
        = emptyState.log ++ mid ++ [("K", fields)] := by
  have h : selSetsContain ((alookup "K" (emptyState.written)).getD []) ([] : SelectionSet)
      = false := by with_unfolding_all rfl
  exact ⟨h, (child_entity_committed_before_parent demoConfig).1 0 plainContext "K" (.obj [])
    [] emptyState h⟩

end Apollo
